import Mathlib

/-!
# Verification of the SafeHold credential-vault core

Shallow embedding of the SafeHold secrets vault (Rust) and proofs about it.

Modelling conventions:
* Rust `String` / `&str` text is modelled as `List Char`; raw bytes are
  modelled as `List Nat`.  The UTF-8 transport between the two
  (`String::from_utf8_lossy`, `as_bytes`) is modelled as mapping
  `Char.toNat` / `Char.ofNat` element-wise.
* `BTreeMap<String, String>` is modelled as an association list sorted
  strictly by the byte-lexicographic order `strLt` (the canonical form a
  `BTreeMap` iteration produces).
* Randomized inputs (nonces, salts, password-hash randomness, prompted
  passwords) become explicit function arguments.
* The AES-256-GCM core and the Argon2id primitives are abstract
  parameters (`GcmPrim`, `CryptoPrims`); the envelope layout, key
  resolution and all control flow around them are embedded from the
  source.  Ideal-primitive assumptions appear as explicit hypotheses.
* Filesystem state is the record `FSState`; absent files are `none`.
-/

/-- Rust string contents, as a list of characters. -/
abbrev Str := List Char

/-- `BTreeMap<String, String>` in canonical (sorted) association-list form. -/
abbrev EnvMap := List (Str × Str)

/-! ## Credential Map Codec (src/envops.rs) -/

/-- Split a character list at every newline character; every segment before
a `'\n'` is returned, plus the final (possibly empty) segment. -/
def splitOnNl : Str → List Str
  | [] => [[]]
  | c :: rest =>
    if c = '\n' then [] :: splitOnNl rest
    else
      match splitOnNl rest with
      | [] => [[c]]
      | l :: ls => (c :: l) :: ls

/-- Remove one trailing carriage return, if present. -/
def stripCr (s : Str) : Str :=
  if s.getLast? = some '\r' then s.dropLast else s

/-- Helper for `lines`: every newline-terminated segment has a trailing
`'\r'` stripped; a final unterminated segment is kept as is; a final empty
segment (from a trailing newline) is dropped. -/
def linesAux : List Str → List Str
  | [] => []
  | [last] => if last = [] then [] else [last]
  | seg :: rest => stripCr seg :: linesAux rest

/-- Rust `str::lines`: split on `'\n'`, treating `"\r\n"` as a line ending
and making the final line ending optional. -/
def lines (s : Str) : List Str :=
  linesAux (splitOnNl s)

/-- Rust `str::trim_start` (restricted to ASCII whitespace). -/
def trimLeft (s : Str) : Str := s.dropWhile Char.isWhitespace

/-- Rust `str::trim_end` (restricted to ASCII whitespace). -/
def trimRight (s : Str) : Str := (s.reverse.dropWhile Char.isWhitespace).reverse

/-- Rust `str::trim` (restricted to ASCII whitespace). -/
def trim (s : Str) : Str := trimLeft (trimRight s)

/-- Rust `str::split_once`: split at the first occurrence of `c`. -/
def split_once (c : Char) : Str → Option (Str × Str)
  | [] => none
  | a :: rest =>
    if a = c then some ([], rest)
    else (split_once c rest).map (fun p => (a :: p.1, p.2))

/-- Byte-lexicographic order on strings (the `Ord` instance of Rust
`String`; UTF-8 byte order coincides with code-point order). -/
def strLt : Str → Str → Bool
  | [], [] => false
  | [], _ :: _ => true
  | _ :: _, [] => false
  | a :: s, b :: t =>
    if a.toNat < b.toNat then true
    else if b.toNat < a.toNat then false
    else strLt s t

/-- `BTreeMap::insert` on the canonical sorted association list: replaces
the value of an existing key, otherwise inserts at the ordered position. -/
def mapInsert (k v : Str) : EnvMap → EnvMap
  | [] => [(k, v)]
  | (k', v') :: rest =>
    if strLt k k' then (k, v) :: (k', v') :: rest
    else if k = k' then (k, v) :: rest
    else (k', v') :: mapInsert k v rest

/-- `BTreeMap::get`. -/
def lookupEnv (k : Str) : EnvMap → Option Str
  | [] => none
  | (k', v) :: rest => if k = k' then some v else lookupEnv k rest

/-- `BTreeMap::remove` (forgetting the returned value). -/
def mapRemove (k : Str) : EnvMap → EnvMap
  | [] => []
  | (k', v) :: rest => if k = k' then rest else (k', v) :: mapRemove k rest

/-- The loop body of `envops::read_env_map_from_bytes`: skip the line if
blank or a `#` comment, otherwise split at the first `'='`, trim both
sides and insert. -/
def envLineStep (map : EnvMap) (line : Str) : EnvMap :=
  if trim line = [] ∨ (trimLeft line).head? = some '#' then map
  else
    match split_once '=' line with
    | some (k, v) => mapInsert (trim k) (trim v) map
    | none => map

/-- `envops::read_env_map_from_bytes`: parse dotenv-style text into a
sorted map, skipping blank lines and `#` comments, splitting each
remaining line at the first `'='` and trimming both sides. -/
def read_env_map_from_bytes (s : Str) : EnvMap :=
  (lines s).foldl envLineStep []

/-- `envops::write_env_string`: emit `key=value\n` per entry in map
(iteration) order. -/
def write_env_string (m : EnvMap) : Str :=
  m.foldr (fun kv acc => kv.1 ++ '=' :: kv.2 ++ '\n' :: acc) []

/-! ## AEAD Codec (src/crypto.rs)

The AES-256-GCM core is abstracted as `GcmPrim`: a deterministic
ciphertext function, its inverse, and a 16-byte tag function, all keyed
and nonce-dependent.  `encrypt_with_key` / `decrypt_with_key` embed the
envelope layout and control flow of the Rust functions; the random nonce
drawn inside `encrypt_with_key` is an explicit argument. -/

/-- A 256-bit key, as raw bytes. -/
abbrev Key := List Nat

/-- Abstract AES-256-GCM core: `ctOf key nonce plaintext` is the raw
ciphertext, `ptOf` its inverse, `tagOf key nonce ciphertext` the 16-byte
authentication tag. -/
structure GcmPrim where
  ctOf : Key → List Nat → List Nat → List Nat
  ptOf : Key → List Nat → List Nat → List Nat
  tagOf : Key → List Nat → List Nat → List Nat

/-- Error taxonomy of the AEAD codec: `Malformed` (envelope shorter than
the nonce) or `AuthenticationFailed` (GCM rejects). -/
inductive CryptoError where
  | Malformed : CryptoError
  | AuthenticationFailed : CryptoError
deriving DecidableEq, Repr

/-- `crypto::encrypt_with_key`: envelope = nonce ‖ ciphertext ‖ tag. -/
def encrypt_with_key (g : GcmPrim) (key : Key) (nonce pt : List Nat) : List Nat :=
  nonce ++ g.ctOf key nonce pt ++ g.tagOf key nonce (g.ctOf key nonce pt)

/-- `crypto::decrypt_with_key`: reject envelopes shorter than the 12-byte
nonce as `Malformed`; then split off the 16-byte tag and verify it,
failing with `AuthenticationFailed` when the remainder is shorter than a
tag or the tag does not match. -/
def decrypt_with_key (g : GcmPrim) (key : Key) (data : List Nat) :
    Except CryptoError (List Nat) :=
  if data.length < 12 then .error .Malformed
  else
    let nonce := data.take 12
    let rest := data.drop 12
    if rest.length < 16 then .error .AuthenticationFailed
    else
      let ct := rest.take (rest.length - 16)
      let tag := rest.drop (rest.length - 16)
      if tag = g.tagOf key nonce ct then .ok (g.ptOf key nonce ct)
      else .error .AuthenticationFailed

/-- Argon2id cost parameters (`crypto::KdfParams`). -/
structure KdfParams where
  m_cost : Nat
  t_cost : Nat
  p_cost : Nat
deriving DecidableEq, Repr

/-- Default Argon2id costs of the source: 19456 KiB, 2 iterations, 1 lane. -/
def default_params : KdfParams := ⟨19456, 2, 1⟩

/-- `crypto::LockInfo`; the salt is kept as raw bytes (the base64
transport encoding of the JSON file is elided). -/
structure LockInfo where
  kdf : Str
  salt : List Nat
  params : KdfParams
deriving DecidableEq, Repr

/-- Abstract Argon2id primitives: `kdf password salt params` is
`hash_password_into` (used by both key-derivation functions);
`a2hash password r` is the self-salted verification hash
(`crypto::argon2_hash`, with `r` the salt randomness) and `a2verify`
its verifier (`crypto::argon2_verify`). -/
structure CryptoPrims where
  gcm : GcmPrim
  kdf : Str → List Nat → KdfParams → Key
  a2hash : Str → Nat → Str
  a2verify : Str → Str → Bool

/-- `crypto::derive_key_from_password`: Argon2id with the lock file's own
salt and recorded cost parameters. -/
def derive_key_from_password (P : CryptoPrims) (password : Str) (lock : LockInfo) : Key :=
  P.kdf password lock.salt lock.params

/-- `crypto::derive_key_from_password_and_salt`: Argon2id with the given
salt and the default cost parameters (used by the master lock). -/
def derive_key_from_password_and_salt (P : CryptoPrims) (password : Str) (salt : List Nat) : Key :=
  P.kdf password salt default_params

/-- The constant, application-wide master-lock salt
`b"safehold_master_lock_salt_v1"` from `envops::load_key_for_dir`. -/
def master_salt : List Nat :=
  ("safehold_master_lock_salt_v1".toList).map Char.toNat

/-! ## Data model and filesystem state -/

/-- `config::SetMeta`: catalog entry of one credential project. -/
structure SetMeta where
  id : Str
  name : Str
  locked : Bool
deriving DecidableEq, Repr

/-- `config::Config` (`config.json`); the `created_at` timestamp and the
`version` string play no role in any claim and are elided. -/
structure Config where
  sets : List SetMeta
  global_locked : Bool
deriving DecidableEq, Repr

/-- Contents of one project (or the global) directory: the optional
`lock.json` and the optional `.env.enc` blob. -/
structure Dir where
  lockFile : Option LockInfo
  envEnc : Option (List Nat)
deriving DecidableEq, Repr

/-- A directory with neither file. -/
def emptyDir : Dir := ⟨none, none⟩

/-- The persistent state under the base directory.  `masterFile` is the
parsed content of `master_lock.json` (`none` = file absent); its second
component is the optional `password_hash` field.  `credDirs` maps each
id to the directory `credentials/<id>`. -/
structure FSState where
  appKey : Option Key
  configFile : Option Config
  masterFile : Option (Bool × Option Str)
  credDirs : List (Str × Dir)
  globalDir : Option Dir
  appSettingsMasterFlag : Bool
deriving DecidableEq, Repr

/-- Reference to a resolved storage directory. -/
inductive DirRef where
  | global : DirRef
  | set : Str → DirRef
deriving DecidableEq, Repr

/-- Look up `credentials/<id>`. -/
def lookupDir (l : List (Str × Dir)) (id : Str) : Option Dir :=
  (l.find? (fun p => p.1 = id)).map Prod.snd

/-- Read a directory's files; a missing directory behaves as an empty one
(missing files read as absent). -/
def getDir (st : FSState) : DirRef → Dir
  | .global => st.globalDir.getD emptyDir
  | .set id => (lookupDir st.credDirs id).getD emptyDir

/-- Overwrite (or create) `credentials/<id>`. -/
def putCredDir (l : List (Str × Dir)) (id : Str) (d : Dir) : List (Str × Dir) :=
  match l with
  | [] => [(id, d)]
  | (id', d') :: rest =>
    if id' = id then (id, d) :: rest else (id', d') :: putCredDir rest id d

/-- Write a directory's contents back into the state. -/
def putDir (st : FSState) (r : DirRef) (d : Dir) : FSState :=
  match r with
  | .global => { st with globalDir := some d }
  | .set id => { st with credDirs := putCredDir st.credDirs id d }

/-- `fs::remove_dir_all` on a project or the global directory. -/
def removeDir (st : FSState) (r : DirRef) : FSState :=
  match r with
  | .global => { st with globalDir := none }
  | .set id => { st with credDirs := st.credDirs.filter (fun p => ¬ p.1 = id) }

/-- `config::save_config`. -/
def save_config (st : FSState) (cfg : Config) : FSState :=
  { st with configFile := some cfg }

/-- Typed failures of the vault core (the `anyhow::bail!` sites of the
source, one constructor per distinct failure). -/
inductive VaultError where
  | Crypto : CryptoError → VaultError
  | ConfigMissing : VaultError
  | ProjectNotFound : VaultError
  | KeyNotFound : VaultError
  | AlreadyExists : VaultError
  | AppKeyUnavailable : VaultError
  | InvalidMasterPassword : VaultError
  | MissingMasterHash : VaultError
  | PasswordMismatch : VaultError
  | PasswordTooShort : VaultError
  | DisableAborted : VaultError
deriving DecidableEq, Repr

/-! ## Master Lock Controller (src/master_lock.rs) -/

/-- `master_lock::MasterLockInfo`. -/
structure MasterLockInfo where
  enabled : Bool
  password_hash : Option Str
deriving DecidableEq, Repr

/-- `master_lock::load_master_lock_info`: an absent `master_lock.json`
reads as `{enabled: false, password_hash: None}`. -/
def load_master_lock_info (st : FSState) : MasterLockInfo :=
  match st.masterFile with
  | none => ⟨false, none⟩
  | some (e, h) => ⟨e, h⟩

/-- `master_lock::save_master_lock_info`: the written JSON carries a
`password_hash` field only when `enabled` is true. -/
def save_master_lock_info (st : FSState) (info : MasterLockInfo) : FSState :=
  { st with
    masterFile := some (if info.enabled then (true, info.password_hash) else (false, none)) }

/-- `master_lock::is_master_lock_enabled`. -/
def is_master_lock_enabled (st : FSState) : Bool :=
  (load_master_lock_info st).enabled

/-- `app_settings::set_global_master_lock`. -/
def set_global_master_lock (st : FSState) (b : Bool) : FSState :=
  { st with appSettingsMasterFlag := b }

/-- `master_lock::enable_master_lock`: hash the password (with salt
randomness `r`), persist `{enabled: true, password_hash}`, update app
settings. -/
def enable_master_lock (P : CryptoPrims) (st : FSState) (password : Str) (r : Nat) : FSState :=
  set_global_master_lock
    (save_master_lock_info st ⟨true, some (P.a2hash password r)⟩) true

/-- `master_lock::disable_master_lock`: persist
`{enabled: false, password_hash: None}`, update app settings. -/
def disable_master_lock (st : FSState) : FSState :=
  set_global_master_lock (save_master_lock_info st ⟨false, none⟩) false

/-- `master_lock::verify_master_password`: always true when the lock is
disabled; otherwise verify against the stored hash, failing if the hash
is missing. -/
def verify_master_password (P : CryptoPrims) (st : FSState) (password : Str) :
    Except VaultError Bool :=
  let info := load_master_lock_info st
  if ¬ info.enabled then .ok true
  else
    match info.password_hash with
    | none => .error .MissingMasterHash
    | some h => .ok (P.a2verify password h)

/-- `master_lock::cmd_master_lock`.  The two prompted strings are the
arguments `password` and `confirm`; `r` is the hash-salt randomness.  In
the disable branch the interactive re-prompt loop of
`prompt_master_password_if_needed` is modelled as: the supplied password
either verifies (and the lock is disabled) or the operation is aborted
externally (`DisableAborted`). -/
def cmd_master_lock (P : CryptoPrims) (st : FSState) (enable : Option Bool)
    (password confirm : Str) (r : Nat) : Except VaultError FSState :=
  match enable with
  | some true =>
    if is_master_lock_enabled st then .ok st
    else if ¬ password = confirm then .error .PasswordMismatch
    else if password.length < 8 then .error .PasswordTooShort
    else .ok (enable_master_lock P st password r)
  | some false =>
    if ¬ is_master_lock_enabled st then .ok st
    else
      match verify_master_password P st password with
      | .error e => .error e
      | .ok true => .ok (disable_master_lock st)
      | .ok false => .error .DisableAborted
  | none => .ok st

/-! ## Key Manager and credential operations (src/envops.rs) -/

/-- `envops::resolve_set_dir`: the literal `"global"` resolves to the
global directory, otherwise the catalog is searched for an entry with
matching id or name. -/
def resolve_set_dir (st : FSState) (idOrName : Str) : Except VaultError DirRef :=
  if idOrName = "global".toList then .ok .global
  else
    match st.configFile with
    | none => .error .ConfigMissing
    | some cfg =>
      match cfg.sets.find? (fun s => s.id = idOrName ∨ s.name = idOrName) with
      | some s => .ok (.set s.id)
      | none => .error .ProjectNotFound

/-- `envops::load_key_for_dir`.  `password` stands for the string the
code obtains from `SAFEHOLD_MASTER_PASSWORD` / `SAFEHOLD_PASSWORD` or an
interactive prompt.  Master lock first: verify the master password and
derive the key from it with the fixed `master_salt`; otherwise use the
per-project lock file, or fall back to the app key. -/
def load_key_for_dir (P : CryptoPrims) (st : FSState) (password : Str) (dir : Dir) :
    Except VaultError Key :=
  if is_master_lock_enabled st then
    match verify_master_password P st password with
    | .error e => .error e
    | .ok false => .error .InvalidMasterPassword
    | .ok true => .ok (derive_key_from_password_and_salt P password master_salt)
  else
    match dir.lockFile with
    | some lock => .ok (derive_key_from_password P password lock)
    | none =>
      match st.appKey with
      | some k => .ok k
      | none => .error .AppKeyUnavailable

/-- `envops::read_env_map`: resolve the key, read the blob (absent or
empty ⇒ empty map), decrypt, parse. -/
def read_env_map (P : CryptoPrims) (st : FSState) (password : Str) (dir : Dir) :
    Except VaultError EnvMap :=
  match load_key_for_dir P st password dir with
  | .error e => .error e
  | .ok key =>
    let enc := dir.envEnc.getD []
    if enc = [] then .ok []
    else
      match decrypt_with_key P.gcm key enc with
      | .error e => .error (.Crypto e)
      | .ok pt => .ok (read_env_map_from_bytes (pt.map Char.ofNat))

/-- `envops::write_env_map`: resolve the key again, serialize, encrypt
with a fresh `nonce`, write the blob. -/
def write_env_map (P : CryptoPrims) (st : FSState) (password : Str) (r : DirRef)
    (nonce : List Nat) (m : EnvMap) : Except VaultError FSState :=
  match load_key_for_dir P st password (getDir st r) with
  | .error e => .error e
  | .ok key =>
    let ct := encrypt_with_key P.gcm key nonce ((write_env_string m).map Char.toNat)
    .ok (putDir st r { getDir st r with envEnc := some ct })

/-- `envops::cmd_get`: print the value of `key`, failing with a
not-found error when the key is absent. -/
def cmd_get (P : CryptoPrims) (st : FSState) (password : Str) (project key : Str) :
    Except VaultError Str :=
  match resolve_set_dir st project with
  | .error e => .error e
  | .ok r =>
    match read_env_map P st password (getDir st r) with
    | .error e => .error e
    | .ok m =>
      match lookupEnv key m with
      | some v => .ok v
      | none => .error .KeyNotFound

/-- `envops::cmd_list`: print all pairs of the project's map. -/
def cmd_list (P : CryptoPrims) (st : FSState) (password : Str) (project : Str) :
    Except VaultError EnvMap :=
  match resolve_set_dir st project with
  | .error e => .error e
  | .ok r => read_env_map P st password (getDir st r)

/-- `envops::cmd_delete`: remove `key` if present and re-encrypt; when
the key is missing the command prints a warning and returns `Ok` without
touching the state (the returned flag is true iff a deletion happened). -/
def cmd_delete (P : CryptoPrims) (st : FSState) (password : Str) (nonce : List Nat)
    (project key : Str) : Except VaultError (FSState × Bool) :=
  match resolve_set_dir st project with
  | .error e => .error e
  | .ok r =>
    match read_env_map P st password (getDir st r) with
    | .error e => .error e
    | .ok m =>
      if (lookupEnv key m).isSome then
        match write_env_map P st password r nonce (mapRemove key m) with
        | .error e => .error e
        | .ok st' => .ok (st', true)
      else .ok (st, false)

/-! ## Project Store (src/core/config.rs, src/core/store.rs) -/

/-- Value of a non-empty all-digit string. -/
def digitsVal (s : Str) : Nat :=
  s.foldl (fun acc c => acc * 10 + (c.toNat - 48)) 0

/-- `str::parse::<u32>` on the digit part: non-empty, all digits, and
within `u32` range. -/
def parseDigitsU32 (s : Str) : Option Nat :=
  if s ≠ [] ∧ s.all Char.isDigit ∧ digitsVal s < 2 ^ 32 then some (digitsVal s) else none

/-- `str::parse::<u32>`: an optional leading `'+'` then digits. -/
def parseU32 (s : Str) : Option Nat :=
  match s with
  | '+' :: rest => parseDigitsU32 rest
  | _ => parseDigitsU32 s

/-- Rust `format!("{:03}", n)`: decimal, left-padded with zeros to width 3. -/
def fmt3 (n : Nat) : Str :=
  let s := Nat.toDigits 10 n
  List.replicate (3 - s.length) '0' ++ s

/-- The numeric prefix of a project id: the part before the first `'_'`,
parsed as `u32`. -/
def prefixNum (id : Str) : Option Nat :=
  match split_once '_' id with
  | some (n, _) => parseU32 n
  | none => none

/-- The fold inside `config::next_set_id`: the largest parsed numeric
prefix among the existing catalog entries (0 if none parses). -/
def maxSeq (existing : List SetMeta) : Nat :=
  existing.foldl
    (fun maxn s =>
      match prefixNum s.id with
      | some v => if v > maxn then v else maxn
      | none => maxn)
    0

/-- `config::next_set_id`: `(max numeric prefix) + 1`, zero-padded to
three digits, concatenated with the name. -/
def next_set_id (name : Str) (existing : List SetMeta) : Str :=
  fmt3 (maxSeq existing + 1) ++ '_' :: name

/-- Modelled from the spec: "Ids are unique, assigned as the smallest
unused three-digit sequence number concatenated with the name."  This
definition follows the spec's words (not the source) and exists only to
be compared with `next_set_id`: it picks the smallest positive sequence
number not used as a numeric prefix by any existing entry. -/
def firstFreeSeq (used : List Nat) (n fuel : Nat) : Nat :=
  match fuel with
  | 0 => n
  | fuel + 1 => if n ∈ used then firstFreeSeq used (n + 1) fuel else n

/-- Modelled from the spec: the id the spec sentence describes — smallest
unused sequence number, three digits, concatenated with the name. -/
def next_set_id_spec (name : Str) (existing : List SetMeta) : Str :=
  let used := existing.filterMap (fun s => prefixNum s.id)
  fmt3 (firstFreeSeq used 1 (used.length + 1)) ++ '_' :: name

/-- `config::ensure_layout`: create the `credentials` and `global`
directories (no-ops when present) and write a default `config.json` when
absent. -/
def ensure_layout (st : FSState) : FSState :=
  { st with
    globalDir := some (st.globalDir.getD emptyDir),
    configFile := some (st.configFile.getD ⟨[], false⟩) }

/-- `crypto::ensure_app_key`: generate and persist a random app key when
none exists (`freshKey` is the drawn randomness). -/
def ensure_app_key (st : FSState) (freshKey : Key) : FSState :=
  match st.appKey with
  | some _ => st
  | none => { st with appKey := some freshKey }

/-- `crypto::create_lock`: fresh random salt (`saltR`), default costs;
the one validation derivation always succeeds for the fixed default
parameters. -/
def create_lock (saltR : List Nat) : LockInfo :=
  ⟨"argon2id".toList, saltR, default_params⟩

/-- `cli::CreateArgs`. -/
structure CreateArgs where
  name : Str
  lock : Bool
  password : Option Str
deriving DecidableEq, Repr

/-- `store::cmd_create`: ensure layout and app key, allocate the id
(`"global"` maps to the global directory), fail with an already-exists
error when the target directory exists, create it, write a lock file
when requested (`promptedPw` models the interactive prompt, `saltR` the
salt randomness), then update the catalog last. -/
def cmd_create (st : FSState) (args : CreateArgs) (freshKey : Key)
    (promptedPw : Str) (saltR : List Nat) : Except VaultError (FSState × Str) :=
  let st := ensure_app_key (ensure_layout st) freshKey
  match st.configFile with
  | none => .error .ConfigMissing
  | some cfg =>
    let name := args.name
    let id := if name = "global".toList then "global".toList else next_set_id name cfg.sets
    let r : DirRef := if id = "global".toList then .global else .set id
    let dirExists :=
      match r with
      | .global => st.globalDir.isSome
      | .set i => (lookupDir st.credDirs i).isSome
    if dirExists then .error .AlreadyExists
    else
      let st := putDir st r emptyDir
      let st :=
        if args.lock then
          let password := args.password.getD promptedPw
          let _ := password
          putDir st r { getDir st r with lockFile := some (create_lock saltR) }
        else st
      if ¬ id = "global".toList then
        let meta : SetMeta := ⟨id, name, args.lock⟩
        .ok (save_config st { cfg with sets := cfg.sets ++ [meta] }, id)
      else
        .ok (save_config st { cfg with global_locked := args.lock }, id)

/-- `cli::DeleteProjectArgs`. -/
structure DeleteProjectArgs where
  id : Str
  force : Bool
deriving DecidableEq, Repr

/-- Confirmation answer check of `cmd_delete_set` (`"y"`/`"yes"`,
lowercased input). -/
def confirmYes (input : Str) : Bool :=
  let t := (trim input).map Char.toLower
  t = "y".toList ∨ t = "yes".toList

/-- `store::cmd_delete_set`: the directory is taken verbatim from the
argument (`credentials/<args.id>`, or `global/`), existence in the
catalog is checked by id or name, a not-found error is raised when
neither the catalog entry nor that directory exists, the user is asked
to confirm unless `force`, the directory (if any) is removed first and
the updated catalog is saved last. -/
def cmd_delete_set (st : FSState) (args : DeleteProjectArgs) (userInput : Str) :
    Except VaultError FSState :=
  match st.configFile with
  | none => .error .ConfigMissing
  | some cfg =>
    let isGlobal := args.id = "global".toList
    let r : DirRef := if isGlobal then .global else .set args.id
    let projectExists :=
      if isGlobal then cfg.global_locked
      else cfg.sets.any (fun s => s.id = args.id ∨ s.name = args.id)
    let dirExists :=
      match r with
      | .global => st.globalDir.isSome
      | .set i => (lookupDir st.credDirs i).isSome
    if !projectExists && !dirExists then .error .ProjectNotFound
    else if !args.force && !confirmYes userInput then .ok st
    else
      let st := removeDir st r
      let cfg' :=
        if isGlobal then { cfg with global_locked := false }
        else { cfg with sets := cfg.sets.filter (fun s => ¬ s.id = args.id ∧ ¬ s.name = args.id) }
      .ok (save_config st cfg')

/-! ## Concrete witness primitives

Executable instantiations of the abstract crypto primitives, used by the
witness theorems to discharge the ideal-primitive hypotheses on concrete
inputs. -/

/-- Injective encoding of a byte list into one number. -/
def listEnc : List Nat → Nat
  | [] => 0
  | a :: l => Nat.pair a (listEnc l) + 1

theorem listEnc_injective : Function.Injective listEnc := by
  intro x
  induction x with
  | nil =>
    intro y h
    cases y with
    | nil => rfl
    | cons b t => simp [listEnc] at h
  | cons a l ih =>
    intro y h
    cases y with
    | nil => simp [listEnc] at h
    | cons b t =>
      simp only [listEnc, Nat.add_right_cancel_iff] at h
      have h1 := congrArg (fun z => (Nat.unpair z).1) h
      have h2 := congrArg (fun z => (Nat.unpair z).2) h
      simp [Nat.unpair_pair] at h1 h2
      rw [h1, ih h2]

/-- Witness tag function: 16 entries, the first injectively encoding the
ciphertext, the second depending on key and nonce. -/
def toyTag (k n c : List Nat) : List Nat :=
  listEnc c :: (k.sum + n.sum) :: List.replicate 14 0

/-- Witness AEAD core: identity cipher with `toyTag` tags. -/
def toyGcm : GcmPrim :=
  ⟨fun _ _ p => p, fun _ _ c => c, toyTag⟩

theorem toyTag_length (k n c : List Nat) : (toyTag k n c).length = 16 := by
  simp [toyTag]

theorem toyGcm_tag_length (k n c : List Nat) : (toyGcm.tagOf k n c).length = 16 :=
  toyTag_length k n c

theorem toyGcm_tag_inj (k n c c' : List Nat)
    (h : toyGcm.tagOf k n c = toyGcm.tagOf k n c') : c = c' := by
  simp only [toyGcm, toyTag, List.cons.injEq] at h
  exact listEnc_injective h.1

theorem toyGcm_pt (k n p : List Nat) : toyGcm.ptOf k n (toyGcm.ctOf k n p) = p := rfl

/-- Witness KDF: tupling of password bytes and salt. -/
def toyKdf (p : Str) (s : List Nat) (_ : KdfParams) : Key :=
  p.map Char.toNat ++ 999 :: s

/-- Witness verification hash: the password itself. -/
def toyA2hash (p : Str) (_ : Nat) : Str := p

/-- Witness verifier: string equality. -/
def toyA2verify (p h : Str) : Bool := decide (p = h)

/-- Witness bundle of all crypto primitives. -/
def toyPrims : CryptoPrims := ⟨toyGcm, toyKdf, toyA2hash, toyA2verify⟩

/-- Decidable equality for `Except`, needed to evaluate claim
statements on concrete inputs. -/
instance {e a : Type _} [DecidableEq e] [DecidableEq a] : DecidableEq (Except e a) := fun x y =>
  match x, y with
  | .error u, .error w =>
    if h : u = w then isTrue (congrArg Except.error h)
    else isFalse (fun hc => h (Except.error.inj hc))
  | .ok u, .ok w =>
    if h : u = w then isTrue (congrArg Except.ok h)
    else isFalse (fun hc => h (Except.ok.inj hc))
  | .error _, .ok _ => isFalse (fun hc => Except.noConfusion hc)
  | .ok _, .error _ => isFalse (fun hc => Except.noConfusion hc)

/-! ## List helper lemmas -/

theorem listGetD_set (l : List Nat) (i v : Nat) (h : i < l.length) :
    (l.set i v).getD i 0 = v := by
  simp [List.getD_eq_getElem?_getD, List.getElem?_set_self, h]

theorem listGetD_append_left (l₁ l₂ : List Nat) (i : Nat) (h : i < l₁.length) :
    (l₁ ++ l₂).getD i 0 = l₁.getD i 0 := by
  simp [List.getD_eq_getElem?_getD, List.getElem?_append_left h]

theorem listGetD_append_right (l₁ l₂ : List Nat) (i : Nat) (h : l₁.length ≤ i) :
    (l₁ ++ l₂).getD i 0 = l₂.getD (i - l₁.length) 0 := by
  simp [List.getD_eq_getElem?_getD, List.getElem?_append_right h]

/-- Decryption of a well-shaped envelope `nonce ‖ blob` reduces to the
tag comparison on `blob`. -/
theorem decrypt_with_key_split (g : GcmPrim) (key : Key) (nonce blob : List Nat)
    (Hn : nonce.length = 12) (Hb : 16 ≤ blob.length) :
    decrypt_with_key g key (nonce ++ blob) =
      if blob.drop (blob.length - 16) = g.tagOf key nonce (blob.take (blob.length - 16))
      then .ok (g.ptOf key nonce (blob.take (blob.length - 16)))
      else .error .AuthenticationFailed := by
  have hlen : (nonce ++ blob).length = 12 + blob.length := by
    simp [List.length_append, Hn]
  have htake : (nonce ++ blob).take 12 = nonce := by
    rw [← Hn]
    exact List.take_left nonce blob
  have hdrop : (nonce ++ blob).drop 12 = blob := by
    rw [← Hn]
    exact List.drop_left nonce blob
  unfold decrypt_with_key
  rw [if_neg (by omega), htake, hdrop, if_neg (by omega)]


/-! ## Claim C5: decrypt failure contract -/

/-- C5: for every key and byte string, `decrypt_with_key` fails with
`Malformed` exactly when the envelope is shorter than the 12-byte nonce;
and flipping any single byte of an envelope's ciphertext-or-tag region
(position `12 + i`) makes it fail with `AuthenticationFailed`, under the
ideal-AEAD assumptions that tags are 16 bytes long and collision-free in
the ciphertext for a fixed key and nonce. -/
theorem decrypt_malformed_iff_and_tamper_detected (g : GcmPrim)
    (HtagLen : ∀ k n c, (g.tagOf k n c).length = 16)
    (HtagInj : ∀ k n c c', g.tagOf k n c = g.tagOf k n c' → c = c')
    (key : Key) (nonce pt : List Nat) (Hn : nonce.length = 12) (i v : Nat)
    (Hi : i < (g.ctOf key nonce pt ++ g.tagOf key nonce (g.ctOf key nonce pt)).length)
    (Hv : v ≠ (g.ctOf key nonce pt ++ g.tagOf key nonce (g.ctOf key nonce pt)).getD i 0) :
    (∀ data, decrypt_with_key g key data = .error .Malformed ↔ data.length < 12) ∧
    decrypt_with_key g key ((encrypt_with_key g key nonce pt).set (12 + i) v) =
      .error .AuthenticationFailed := by
  constructor
  · intro data
    constructor
    · intro h
      by_contra hlen
      unfold decrypt_with_key at h
      rw [if_neg hlen] at h
      simp only [] at h
      split at h
      · exact CryptoError.noConfusion (Except.error.inj h)
      · split at h
        · exact Except.noConfusion h
        · exact CryptoError.noConfusion (Except.error.inj h)
    · intro h
      unfold decrypt_with_key
      rw [if_pos h]
  · set ct := g.ctOf key nonce pt with hct
    set tag := g.tagOf key nonce ct with htag
    have htlen : tag.length = 16 := HtagLen key nonce ct
    have hset : (encrypt_with_key g key nonce pt).set (12 + i) v =
        nonce ++ (ct ++ tag).set i v := by
      unfold encrypt_with_key
      rw [← hct, ← htag, List.append_assoc]
      rw [List.set_append_right (12 + i) v (by omega)]
      congr 1
      congr 1
      omega
    rw [hset]
    have hblen : ((ct ++ tag).set i v).length = ct.length + 16 := by
      simp [List.length_set, List.length_append, htlen]
    rw [decrypt_with_key_split g key nonce ((ct ++ tag).set i v) Hn (by omega)]
    have hrlen : ((ct ++ tag).set i v).length - 16 = ct.length := by omega
    rw [hrlen]
    by_cases hcase : i < ct.length
    · have hsplit : (ct ++ tag).set i v = ct.set i v ++ tag :=
        List.set_append_left i v hcase
      have hclen : (ct.set i v).length = ct.length := List.length_set ct i v
      have htake : ((ct ++ tag).set i v).take ct.length = ct.set i v := by
        rw [hsplit, ← hclen]
        exact List.take_left (ct.set i v) tag
      have hdropb : ((ct ++ tag).set i v).drop ct.length = tag := by
        rw [hsplit, ← hclen]
        exact List.drop_left (ct.set i v) tag
      rw [htake, hdropb, if_neg]
      intro heq
      have hcc : ct = ct.set i v := HtagInj key nonce ct (ct.set i v) (htag ▸ heq)
      have hv1 : (ct.set i v).getD i 0 = v := listGetD_set ct i v hcase
      have hv2 : (ct ++ tag).getD i 0 = ct.getD i 0 :=
        listGetD_append_left ct tag i hcase
      rw [← hcc] at hv1
      exact Hv (by rw [hv2, hv1])
    · have hile : ct.length ≤ i := by omega
      have hj : i - ct.length < tag.length := by
        rw [htlen]
        have := List.length_append ct tag ▸ Hi
        omega
      have hsplit : (ct ++ tag).set i v = ct ++ tag.set (i - ct.length) v :=
        List.set_append_right i v hile
      have htake : ((ct ++ tag).set i v).take ct.length = ct := by
        rw [hsplit]
        exact List.take_left ct (tag.set (i - ct.length) v)
      have hdropb : ((ct ++ tag).set i v).drop ct.length = tag.set (i - ct.length) v := by
        rw [hsplit]
        exact List.drop_left ct (tag.set (i - ct.length) v)
      rw [htake, hdropb, if_neg]
      intro heq
      rw [← htag] at heq
      have hv1 : (tag.set (i - ct.length) v).getD (i - ct.length) 0 = v :=
        listGetD_set tag (i - ct.length) v hj
      have hv2 : (ct ++ tag).getD i 0 = tag.getD (i - ct.length) 0 :=
        listGetD_append_right ct tag i hile
      rw [heq] at hv1
      exact Hv (by rw [hv2, hv1])

/-- Witness for C5 at the concrete witness primitives: a short envelope is
`Malformed`, and flipping the first ciphertext byte of a concrete
envelope yields `AuthenticationFailed`. -/
theorem decrypt_malformed_iff_and_tamper_detected_witness :
    decrypt_with_key toyGcm [1] [0, 1, 2] = .error .Malformed ∧
    decrypt_with_key toyGcm [1]
      ((encrypt_with_key toyGcm [1] (List.replicate 12 0) [5, 6]).set (12 + 0) 9) =
      .error .AuthenticationFailed := by
  have h := decrypt_malformed_iff_and_tamper_detected toyGcm toyGcm_tag_length
    toyGcm_tag_inj [1] (List.replicate 12 0) [5, 6] (by decide) 0 9
    (by decide) (by decide)
  exact ⟨(h.1 [0, 1, 2]).mpr (by decide), h.2⟩

/-! ## Claim C6: encrypt/decrypt round trip -/

/-- Round-trip core: decrypting an envelope produced by
`encrypt_with_key` under the same key returns the plaintext (ideal-AEAD
assumptions: invertible cipher core, 16-byte tags). -/
theorem decrypt_encrypt_eq_ok (g : GcmPrim)
    (Hpt : ∀ k n p, g.ptOf k n (g.ctOf k n p) = p)
    (HtagLen : ∀ k n c, (g.tagOf k n c).length = 16)
    (key : Key) (nonce pt : List Nat) (Hn : nonce.length = 12) :
    decrypt_with_key g key (encrypt_with_key g key nonce pt) = .ok pt := by
  set ct := g.ctOf key nonce pt with hct
  set tag := g.tagOf key nonce ct with htag
  have htlen : tag.length = 16 := HtagLen key nonce ct
  have henv : encrypt_with_key g key nonce pt = nonce ++ (ct ++ tag) := by
    unfold encrypt_with_key
    rw [← hct, ← htag, List.append_assoc]
  rw [henv, decrypt_with_key_split g key nonce (ct ++ tag) Hn
    (by simp [List.length_append, htlen])]
  have hlen : (ct ++ tag).length - 16 = ct.length := by
    simp [List.length_append, htlen]
  have htake : (ct ++ tag).take ((ct ++ tag).length - 16) = ct := by
    rw [hlen]
    exact List.take_left ct tag
  have hdropb : (ct ++ tag).drop ((ct ++ tag).length - 16) = tag := by
    rw [hlen]
    exact List.drop_left ct tag
  rw [htake, hdropb, if_pos htag.symm, hct, Hpt]

/-- C6: for every key, nonce and plaintext, decrypting an envelope
produced by `encrypt_with_key` under the same key succeeds and returns
the plaintext, under the ideal-AEAD assumptions that the cipher core is
invertible and tags are 16 bytes long. -/
theorem decrypt_encrypt_roundtrip (g : GcmPrim)
    (Hpt : ∀ k n p, g.ptOf k n (g.ctOf k n p) = p)
    (HtagLen : ∀ k n c, (g.tagOf k n c).length = 16)
    (key : Key) (nonce pt : List Nat) (Hn : nonce.length = 12) :
    decrypt_with_key g key (encrypt_with_key g key nonce pt) = .ok pt :=
  decrypt_encrypt_eq_ok g Hpt HtagLen key nonce pt Hn

/-- Witness for C6: a concrete round trip through the witness AEAD. -/
theorem decrypt_encrypt_roundtrip_witness :
    decrypt_with_key toyGcm [1] (encrypt_with_key toyGcm [1] (List.replicate 12 0) [5, 6]) =
      .ok [5, 6] :=
  decrypt_encrypt_roundtrip toyGcm toyGcm_pt toyGcm_tag_length [1]
    (List.replicate 12 0) [5, 6] (by decide)

/-! ## Claim C4: create "global" always fails -/

/-- C4: `cmd_create` with the reserved name `"global"` always fails with
an already-exists error, for every state and argument combination,
because `ensure_layout` first creates the `global/` directory
unconditionally. -/
theorem create_global_always_already_exists (st : FSState) (args : CreateArgs)
    (freshKey : Key) (promptedPw : Str) (saltR : List Nat)
    (Hname : args.name = "global".toList) :
    cmd_create st args freshKey promptedPw saltR = .error .AlreadyExists := by
  cases hak : st.appKey <;>
    simp [cmd_create, ensure_layout, ensure_app_key, hak, Hname]

/-- Witness for C4: creating `"global"` on the empty initial state (with
`lock = true` and a password supplied) fails with the already-exists
error. -/
theorem create_global_always_already_exists_witness :
    cmd_create ⟨none, none, none, [], none, false⟩
      ⟨"global".toList, true, some ("pw12345".toList)⟩ [0] [] [1] =
      .error .AlreadyExists :=
  create_global_always_already_exists _ _ _ _ _ rfl

/-! ## Claim C9: master-lock persistence invariant -/

/-- Operations of the master lock controller that persist state. -/
inductive MLOp where
  | enable (password : Str) (r : Nat)
  | disable
deriving DecidableEq, Repr

/-- Apply one controller operation (each invokes
`save_master_lock_info`). -/
def applyMLOp (P : CryptoPrims) (st : FSState) : MLOp → FSState
  | .enable pw r => enable_master_lock P st pw r
  | .disable => disable_master_lock st

/-- The initial state: no files exist yet. -/
def initialVault : FSState := ⟨none, none, none, [], none, false⟩

/-- Run a sequence of controller operations from the initial no-file
state. -/
def runMLOps (P : CryptoPrims) (ops : List MLOp) : FSState :=
  ops.foldl (applyMLOp P) initialVault

/-- The persisted `MasterLockConfig` invariant: `password_hash` is `Some`
iff `enabled` is true. -/
def masterHashInvariant (st : FSState) : Prop :=
  (load_master_lock_info st).password_hash.isSome = (load_master_lock_info st).enabled

/-- C9: in every state reachable by the master lock controller's
operations (enable, disable, and the save they invoke) from the initial
no-file state, the persisted configuration satisfies `password_hash`
is `Some` iff `enabled`. -/
theorem master_lock_invariant_reachable (P : CryptoPrims) (ops : List MLOp) :
    masterHashInvariant (runMLOps P ops) := by
  have step : ∀ (st : FSState) (op : MLOp), masterHashInvariant (applyMLOp P st op) := by
    intro st op
    cases op <;>
      simp [masterHashInvariant, applyMLOp, enable_master_lock, disable_master_lock,
        save_master_lock_info, set_global_master_lock, load_master_lock_info]
  have run : ∀ (l : List MLOp) (st : FSState), masterHashInvariant st →
      masterHashInvariant (l.foldl (applyMLOp P) st) := by
    intro l
    induction l with
    | nil => intro st h; exact h
    | cons op rest ih => intro st _; exact ih _ (step st op)
  exact run ops initialVault (by simp [masterHashInvariant, initialVault, load_master_lock_info])

/-! ## Claim C10: enable validation and frame -/

/-- C10: when the master lock is not yet enabled, `cmd_master_lock
--enable` rejects every password shorter than 8 characters (never
returning success), and on success (matching confirmation, length ≥ 8)
persists `{enabled: true, password_hash}` while leaving every project
directory — per-project lock files and encrypted blobs — unchanged. -/
theorem master_lock_enable_checks_and_frame (P : CryptoPrims) (st : FSState)
    (pw confirm : Str) (r : Nat)
    (Hoff : is_master_lock_enabled st = false) :
    (pw.length < 8 → ∀ st', cmd_master_lock P st (some true) pw confirm r ≠ .ok st') ∧
    (pw = confirm → 8 ≤ pw.length →
      cmd_master_lock P st (some true) pw confirm r = .ok (enable_master_lock P st pw r) ∧
      (enable_master_lock P st pw r).masterFile = some (true, some (P.a2hash pw r)) ∧
      (enable_master_lock P st pw r).credDirs = st.credDirs ∧
      (enable_master_lock P st pw r).globalDir = st.globalDir) := by
  constructor
  · intro hshort st'
    by_cases hc : pw = confirm
    · subst hc
      simp [cmd_master_lock, Hoff, hshort]
    · simp [cmd_master_lock, Hoff, hc]
  · intro hc hlen
    subst hc
    refine ⟨?_, ?_, ?_, ?_⟩
    · simp only [cmd_master_lock, Hoff, Bool.false_eq_true, if_false, not_true_eq_false]
      rw [if_neg (by omega)]
    · simp [enable_master_lock, save_master_lock_info, set_global_master_lock]
    · simp [enable_master_lock, save_master_lock_info, set_global_master_lock]
    · simp [enable_master_lock, save_master_lock_info, set_global_master_lock]

/-- Witness for C10: a 5-character password is rejected on the initial
state; an 8-character password succeeds and persists the enabled
configuration. -/
theorem master_lock_enable_checks_and_frame_witness :
    cmd_master_lock toyPrims initialVault (some true) ("short".toList) ("short".toList) 0 ≠
      .ok initialVault ∧
    cmd_master_lock toyPrims initialVault (some true) ("abcdefgh".toList) ("abcdefgh".toList) 0 =
      .ok (enable_master_lock toyPrims initialVault ("abcdefgh".toList) 0) := by
  constructor
  · exact (master_lock_enable_checks_and_frame toyPrims initialVault ("short".toList)
      ("short".toList) 0 (by decide)).1 (by decide) initialVault
  · exact ((master_lock_enable_checks_and_frame toyPrims initialVault ("abcdefgh".toList)
      ("abcdefgh".toList) 0 (by decide)).2 rfl (by decide)).1

/-! ## Claim C8: get / delete on a missing key -/

/-- C8 (amended): when the project resolves and its map decrypts to `m`
with `key` absent, `cmd_get` fails with a not-found error, but
`cmd_delete` succeeds as a warned no-op, returning the state unchanged —
it does not fail. -/
theorem get_missing_fails_delete_missing_noop (P : CryptoPrims) (st : FSState)
    (pw : Str) (nonce : List Nat) (project key : Str) (r : DirRef) (m : EnvMap)
    (Hres : resolve_set_dir st project = .ok r)
    (Hread : read_env_map P st pw (getDir st r) = .ok m)
    (Habs : lookupEnv key m = none) :
    cmd_get P st pw project key = .error .KeyNotFound ∧
    cmd_delete P st pw nonce project key = .ok (st, false) := by
  constructor
  · simp [cmd_get, Hres, Hread, Habs]
  · simp [cmd_delete, Hres, Hread, Habs]

/-- Concrete state for the C8 counterexample and witness: one unlocked
project `001_a`, app key present, no master lock, no blob. -/
def c8State : FSState :=
  ⟨some [0], some ⟨[⟨"001_a".toList, "a".toList, false⟩], false⟩, none,
    [("001_a".toList, emptyDir)], some emptyDir, false⟩

/-- Counterexample to C8 as stated: on a concrete project whose decrypted
map lacks the key `"K"`, the delete operation returns success (the
warned no-op), not a not-found failure. -/
theorem delete_missing_key_returns_ok :
    lookupEnv ("K".toList) [] = none ∧
    read_env_map toyPrims c8State [] (getDir c8State (.set ("001_a".toList))) = .ok [] ∧
    cmd_delete toyPrims c8State [] [] ("001_a".toList) ("K".toList) = .ok (c8State, false) := by
  decide

/-- Witness for C8 (amended) at the concrete state. -/
theorem get_missing_fails_delete_missing_noop_witness :
    cmd_get toyPrims c8State [] ("001_a".toList) ("K".toList) = .error .KeyNotFound ∧
    cmd_delete toyPrims c8State [] [] ("001_a".toList) ("K".toList) = .ok (c8State, false) :=
  get_missing_fails_delete_missing_noop toyPrims c8State [] [] ("001_a".toList)
    ("K".toList) (.set ("001_a".toList)) [] (by decide) (by decide) (by decide)

/-! ## Claim C2: project id allocation -/

/-- Counterexample to C2 as stated: with catalog `[002_b]` (as left after
earlier projects were deleted), the code assigns `003_x` while the
smallest unused three-digit sequence number is 001; and with catalog
`[001_a]` (as left after `002_b` was created and then deleted) the code
assigns `002_c`, reusing sequence number 002. -/
theorem next_set_id_not_smallest_unused :
    next_set_id ("x".toList) [⟨"002_b".toList, "b".toList, false⟩] ≠
      next_set_id_spec ("x".toList) [⟨"002_b".toList, "b".toList, false⟩] ∧
    next_set_id ("x".toList) [⟨"002_b".toList, "b".toList, false⟩] = "003_x".toList ∧
    next_set_id_spec ("x".toList) [⟨"002_b".toList, "b".toList, false⟩] = "001_x".toList ∧
    next_set_id ("c".toList) [⟨"001_a".toList, "a".toList, false⟩] = "002_c".toList := by
  decide

/-- C2 (amended): the assigned id is `(largest numeric prefix in the
current catalog) + 1` (three-digit zero-padded) concatenated with the
name; this sequence number is strictly greater than every numeric prefix
currently in the catalog, hence unused among the present entries — but
it is the smallest unused number, and numbers of deleted projects stay
unused, only as long as the maximum-numbered project is never deleted. -/
theorem next_set_id_exceeds_existing (name : Str) (existing : List SetMeta) :
    next_set_id name existing = fmt3 (maxSeq existing + 1) ++ '_' :: name ∧
    ∀ s ∈ existing, ∀ n, prefixNum s.id = some n → n < maxSeq existing + 1 := by
  constructor
  · rfl
  · have key : ∀ (l : List SetMeta) (acc : Nat),
        acc ≤ l.foldl
          (fun maxn s =>
            match prefixNum s.id with
            | some v => if v > maxn then v else maxn
            | none => maxn) acc ∧
        ∀ s ∈ l, ∀ n, prefixNum s.id = some n →
          n ≤ l.foldl
            (fun maxn s =>
              match prefixNum s.id with
              | some v => if v > maxn then v else maxn
              | none => maxn) acc := by
      intro l
      induction l with
      | nil => simp
      | cons s rest ih =>
        intro acc
        have hstep : acc ≤
            match prefixNum s.id with
            | some v => if v > acc then v else acc
            | none => acc := by
          cases h : prefixNum s.id
          · simp
          · simp only []
            split <;> omega
        constructor
        · exact le_trans hstep (ih _).1
        · intro t ht n hn
          rcases List.mem_cons.mp ht with hh | hh
          · subst hh
            have hself : n ≤
                match prefixNum t.id with
                | some v => if v > acc then v else acc
                | none => acc := by
              rw [hn]
              simp only []
              split <;> omega
            simp only [List.foldl_cons]
            exact le_trans hself (ih _).1
          · simp only [List.foldl_cons]
            exact (ih _).2 t hh n hn
    intro s hs n hn
    have := (key existing 0).2 s hs n hn
    have hmax : maxSeq existing =
        existing.foldl
          (fun maxn s =>
            match prefixNum s.id with
            | some v => if v > maxn then v else maxn
            | none => maxn) 0 := rfl
    omega

/-- Witness for C2 (amended) on a concrete catalog. -/
theorem next_set_id_exceeds_existing_witness :
    next_set_id ("c".toList) [⟨"001_a".toList, "a".toList, false⟩] =
      fmt3 (maxSeq [⟨"001_a".toList, "a".toList, false⟩] + 1) ++ '_' :: ("c".toList) ∧
    ∀ s ∈ [(⟨"001_a".toList, "a".toList, false⟩ : SetMeta)], ∀ n,
      prefixNum s.id = some n → n < maxSeq [⟨"001_a".toList, "a".toList, false⟩] + 1 :=
  next_set_id_exceeds_existing ("c".toList) [⟨"001_a".toList, "a".toList, false⟩]

/-! ## Claim C3: project deletion by id or name -/

/-- Concrete state for C3: one project with id `001_demo` and display
name `demo`, whose directory exists. -/
def c3State : FSState :=
  ⟨some [0], some ⟨[⟨"001_demo".toList, "demo".toList, false⟩], false⟩, none,
    [("001_demo".toList, emptyDir)], some emptyDir, false⟩

/-- C3: evaluating `cmd_delete_set` at the failing input.  Deleting by
the display name `"demo"` (forced) succeeds and removes the catalog
entry, but the project's directory `credentials/001_demo` is left behind
untouched, because the code derives the directory path verbatim from the
argument instead of resolving the name to the id. -/
theorem delete_by_name_orphans_directory :
    cmd_delete_set c3State ⟨"demo".toList, true⟩ [] =
      .ok ⟨some [0], some ⟨[], false⟩, none,
        [("001_demo".toList, emptyDir)], some emptyDir, false⟩ ∧
    lookupDir c3State.credDirs ("001_demo".toList) = some emptyDir := by
  decide

/-! ## Codec lemmas for the round-trip proofs -/

theorem strLt_asymm : ∀ a b : Str, strLt a b = true → strLt b a = false := by
  intro a
  induction a with
  | nil =>
    intro b h
    cases b with
    | nil => simp [strLt] at h
    | cons d u => simp [strLt]
  | cons c t ih =>
    intro b h
    cases b with
    | nil => simp [strLt] at h
    | cons d u =>
      simp only [strLt] at h ⊢
      rcases Nat.lt_trichotomy c.toNat d.toNat with h1 | h1 | h1
      · rw [if_neg (by omega), if_pos h1]
      · rw [if_neg (by omega), if_neg (by omega)] at h
        rw [if_neg (by omega), if_neg (by omega)]
        exact ih u h
      · rw [if_neg (by omega), if_pos h1] at h
        exact absurd h (by simp)

theorem strLt_irrefl : ∀ a : Str, strLt a a = false := by
  intro a
  induction a with
  | nil => rfl
  | cons c t ih =>
    simp only [strLt]
    rw [if_neg (by omega), if_neg (by omega)]
    exact ih

theorem strLt_ne (a b : Str) (h : strLt a b = true) : a ≠ b := by
  intro he
  subst he
  rw [strLt_irrefl] at h
  exact Bool.noConfusion h

theorem mapInsert_of_all_lt (k v : Str) : ∀ (acc : EnvMap),
    (∀ p ∈ acc, strLt p.1 k = true) → mapInsert k v acc = acc ++ [(k, v)] := by
  intro acc
  induction acc with
  | nil => intro _; rfl
  | cons q rest ih =>
    intro H
    obtain ⟨qk, qv⟩ := q
    have hq : strLt qk k = true := H (qk, qv) (List.mem_cons_self _ _)
    have h1 : strLt k qk = false := strLt_asymm qk k hq
    have h2 : ¬ k = qk := fun he => strLt_ne qk k hq he.symm
    simp only [mapInsert]
    rw [if_neg (by simp [h1]), if_neg h2]
    rw [ih (fun p hp => H p (List.mem_cons_of_mem _ hp))]
    simp

theorem dropWhile_head_false {p : Char → Bool} {c : Char} {t : Str}
    (h : List.dropWhile p (c :: t) = c :: t) : p c = false := by
  by_contra hb
  rw [Bool.not_eq_false] at hb
  rw [List.dropWhile_cons_of_pos hb] at h
  have hle := (List.dropWhile_suffix p (l := t)).length_le
  rw [h] at hle
  simp at hle

theorem trimLeft_cons_of_not_ws (c : Char) (t : Str) (h : c.isWhitespace = false) :
    trimLeft (c :: t) = c :: t := by
  simp [trimLeft, List.dropWhile_cons, h]

theorem trimRight_of_last_not_ws (s : Str) (c : Char) (h : s.getLast? = some c)
    (hc : c.isWhitespace = false) : trimRight s = s := by
  unfold trimRight
  have hrev : s.reverse.head? = some c := by rw [List.head?_reverse, h]
  cases hs : s.reverse with
  | nil => rw [hs] at hrev; exact Option.noConfusion hrev
  | cons d u =>
    rw [hs] at hrev
    injection hrev with hd
    have hdw : ¬ d.isWhitespace = true := by rw [hd, hc]; simp
    rw [List.dropWhile_cons_of_neg hdw, ← hs, List.reverse_reverse]

theorem trim_parts (s : Str) (h : trim s = s) : trimLeft s = s ∧ trimRight s = s := by
  have h2 : (trimRight s).length ≤ s.length := by
    unfold trimRight
    calc (s.reverse.dropWhile Char.isWhitespace).reverse.length
        = (s.reverse.dropWhile Char.isWhitespace).length := List.length_reverse _
      _ ≤ s.reverse.length := (List.dropWhile_suffix _).length_le
      _ = s.length := List.length_reverse s
  have hlen : s.length = (trim s).length := by rw [h]
  have h1 : (trim s).length ≤ (trimRight s).length := by
    unfold trim trimLeft
    exact (List.dropWhile_suffix _).length_le
  have h3 : (trimRight s).length = s.length := by omega
  have hR : trimRight s = s := by
    have h4 : (s.reverse.dropWhile Char.isWhitespace).length = s.reverse.length := by
      rw [List.length_reverse]
      calc (s.reverse.dropWhile Char.isWhitespace).length
          = (s.reverse.dropWhile Char.isWhitespace).reverse.length :=
            (List.length_reverse _).symm
        _ = s.length := h3
    have h5 := (List.dropWhile_suffix (p := Char.isWhitespace)
      (l := s.reverse)).eq_of_length h4
    unfold trimRight
    rw [h5, List.reverse_reverse]
  refine ⟨?_, hR⟩
  have h6 := h
  unfold trim at h6
  rw [hR] at h6
  exact h6

theorem head_not_ws_of_trimLeft (c : Char) (t : Str) (h : trimLeft (c :: t) = c :: t) :
    c.isWhitespace = false := by
  unfold trimLeft at h
  exact dropWhile_head_false h

theorem last_not_ws_of_trimRight (s : Str) (h : trimRight s = s) :
    ∀ c, s.getLast? = some c → c.isWhitespace = false := by
  intro c hc
  have hrev : s.reverse.dropWhile Char.isWhitespace = s.reverse := by
    have h0 := congrArg List.reverse h
    unfold trimRight at h0
    rw [List.reverse_reverse] at h0
    exact h0
  have hh : s.reverse.head? = some c := by rw [List.head?_reverse, hc]
  cases hs : s.reverse with
  | nil => rw [hs] at hh; exact Option.noConfusion hh
  | cons d u =>
    rw [hs] at hh hrev
    injection hh with hd
    subst hd
    exact dropWhile_head_false hrev

/-- The conditions on a key under which its encoded line survives the
decoder unchanged: no surrounding whitespace, no `'='`, no newline, and
not starting with the comment character. -/
def goodKey (k : Str) : Prop :=
  trim k = k ∧ '=' ∉ k ∧ '\n' ∉ k ∧ k.head? ≠ some '#'

/-- The conditions on a value: no surrounding whitespace and no
newline. -/
def goodVal (v : Str) : Prop :=
  trim v = v ∧ '\n' ∉ v

instance (k : Str) : Decidable (goodKey k) := by unfold goodKey; infer_instance

instance (v : Str) : Decidable (goodVal v) := by unfold goodVal; infer_instance

theorem split_once_append (k v : Str) (h : '=' ∉ k) :
    split_once '=' (k ++ '=' :: v) = some (k, v) := by
  induction k with
  | nil => simp [split_once]
  | cons c t ih =>
    have hc : ¬ c = '=' := fun he => h (by rw [he]; exact List.mem_cons_self _ _)
    have ht : '=' ∉ t := fun hm => h (List.mem_cons_of_mem _ hm)
    simp only [List.cons_append, split_once]
    rw [if_neg hc]
    simp [ih ht]

theorem line_getLast (k v : Str) :
    (k ++ '=' :: v).getLast? = ('=' :: v).getLast? := by
  rw [List.getLast?_append_of_ne_nil]
  simp

theorem line_last_not_ws (k v : Str) (hv : trimRight v = v) :
    ∀ c, (k ++ '=' :: v).getLast? = some c → c.isWhitespace = false := by
  intro c hc
  rw [line_getLast] at hc
  cases hvv : v with
  | nil =>
    subst hvv
    simp [List.getLast?] at hc
    subst hc
    decide
  | cons d u =>
    rw [hvv] at hc
    rw [List.getLast?_cons_cons] at hc
    rw [← hvv] at hc
    exact last_not_ws_of_trimRight v hv c hc

theorem stripCr_line (k v : Str) (hv : trimRight v = v) :
    stripCr (k ++ '=' :: v) = k ++ '=' :: v := by
  unfold stripCr
  rw [if_neg]
  intro hlast
  have hws := line_last_not_ws k v hv '\r' hlast
  exact absurd hws (by decide)

theorem trimRight_line (k v : Str) (hv : trimRight v = v) :
    trimRight (k ++ '=' :: v) = k ++ '=' :: v := by
  cases hl : (k ++ '=' :: v).getLast? with
  | none =>
    exfalso
    rw [line_getLast] at hl
    cases v <;> simp [List.getLast?] at hl
  | some c =>
    exact trimRight_of_last_not_ws _ c hl (line_last_not_ws k v hv c hl)

theorem trimLeft_line (k v : Str) (hk : trimLeft k = k) :
    trimLeft (k ++ '=' :: v) = k ++ '=' :: v := by
  cases hkk : k with
  | nil => simpa using trimLeft_cons_of_not_ws '=' v (by decide)
  | cons c t =>
    rw [hkk] at hk
    have hcw : c.isWhitespace = false := head_not_ws_of_trimLeft c t hk
    simp only [List.cons_append]
    exact trimLeft_cons_of_not_ws c (t ++ '=' :: v) hcw

theorem trim_line (k v : Str) (hk : trim k = k) (hv : trim v = v) :
    trim (k ++ '=' :: v) = k ++ '=' :: v := by
  unfold trim
  rw [trimRight_line k v (trim_parts v hv).2, trimLeft_line k v (trim_parts k hk).1]

theorem envLineStep_insert (acc : EnvMap) (k v : Str) (hk : goodKey k) (hv : goodVal v) :
    envLineStep acc (k ++ '=' :: v) = mapInsert k v acc := by
  obtain ⟨hk1, hk2, hk3, hk4⟩ := hk
  obtain ⟨hv1, hv2⟩ := hv
  unfold envLineStep
  have hcond : ¬ (trim (k ++ '=' :: v) = [] ∨
      (trimLeft (k ++ '=' :: v)).head? = some '#') := by
    rw [trim_line k v hk1 hv1, trimLeft_line k v (trim_parts k hk1).1]
    rintro (h | h)
    · simp at h
    · cases hkk : k with
      | nil =>
        rw [hkk] at h
        simp at h
      | cons c t =>
        rw [hkk] at h
        simp at h
        rw [hkk] at hk4
        simp [h] at hk4
  rw [if_neg hcond]
  have hs := split_once_append k v hk2
  simp only [hs, hk1, hv1]

theorem splitOnNl_append_cons (a b : Str) (ha : '\n' ∉ a) :
    splitOnNl (a ++ '\n' :: b) = a :: splitOnNl b := by
  induction a with
  | nil => simp [splitOnNl]
  | cons c t ih =>
    have hc : ¬ c = '\n' := fun he => ha (by rw [he]; exact List.mem_cons_self _ _)
    have ht : '\n' ∉ t := fun hm => ha (List.mem_cons_of_mem _ hm)
    show (if c = '\n' then [] :: splitOnNl (t ++ '\n' :: b)
      else
        match splitOnNl (t ++ '\n' :: b) with
        | [] => [[c]]
        | l :: ls => (c :: l) :: ls) = (c :: t) :: splitOnNl b
    rw [if_neg hc, ih ht]

theorem splitOnNl_ne_nil (s : Str) : splitOnNl s ≠ [] := by
  cases s with
  | nil => simp [splitOnNl]
  | cons c t =>
    simp only [splitOnNl]
    split
    · simp
    · split <;> simp

theorem write_env_string_cons (k v : Str) (m : EnvMap) :
    write_env_string ((k, v) :: m) = (k ++ '=' :: v) ++ '\n' :: write_env_string m := by
  simp [write_env_string, List.append_assoc]

theorem lines_write (m : EnvMap)
    (H : ∀ p ∈ m, goodKey p.1 ∧ goodVal p.2) :
    lines (write_env_string m) = m.map (fun kv => kv.1 ++ '=' :: kv.2) := by
  induction m with
  | nil => rfl
  | cons p m' ih =>
    obtain ⟨k, v⟩ := p
    obtain ⟨hk, hv⟩ := H (k, v) (List.mem_cons_self _ _)
    have hnl_k : '\n' ∉ k := hk.2.2.1
    have hnl_v : '\n' ∉ v := hv.2
    have hline_nl : '\n' ∉ (k ++ '=' :: v) := by
      intro hm
      rcases List.mem_append.mp hm with h | h
      · exact hnl_k h
      · rcases List.mem_cons.mp h with h | h
        · exact absurd h (by decide)
        · exact hnl_v h
    rw [write_env_string_cons]
    unfold lines
    rw [splitOnNl_append_cons _ _ hline_nl]
    obtain ⟨x, xs, hx⟩ : ∃ x xs, splitOnNl (write_env_string m') = x :: xs := by
      cases hss : splitOnNl (write_env_string m') with
      | nil => exact absurd hss (splitOnNl_ne_nil _)
      | cons x xs => exact ⟨x, xs, rfl⟩
    rw [hx]
    have hstep : linesAux ((k ++ '=' :: v) :: x :: xs) =
        stripCr (k ++ '=' :: v) :: linesAux (x :: xs) := rfl
    rw [hstep, stripCr_line k v (trim_parts v hv.1).2]
    have ih' := ih (fun q hq => H q (List.mem_cons_of_mem _ hq))
    unfold lines at ih'
    rw [hx] at ih'
    rw [ih']
    simp

theorem decode_fold (m : EnvMap) : ∀ (acc : EnvMap),
    m.Pairwise (fun a b => strLt a.1 b.1 = true) →
    (∀ p ∈ m, goodKey p.1 ∧ goodVal p.2) →
    (∀ q ∈ acc, ∀ p ∈ m, strLt q.1 p.1 = true) →
    (m.map (fun kv => kv.1 ++ '=' :: kv.2)).foldl envLineStep acc = acc ++ m := by
  induction m with
  | nil => intro acc _ _ _; simp
  | cons p m' ih =>
    intro acc hs hg hacc
    obtain ⟨k, v⟩ := p
    simp only [List.map_cons, List.foldl_cons]
    rw [envLineStep_insert acc k v (hg (k, v) (List.mem_cons_self _ _)).1
      (hg (k, v) (List.mem_cons_self _ _)).2]
    rw [mapInsert_of_all_lt k v acc (fun q hq => hacc q hq (k, v) (List.mem_cons_self _ _))]
    have hs' := List.pairwise_cons.mp hs
    rw [ih (acc ++ [(k, v)]) hs'.2 (fun q hq => hg q (List.mem_cons_of_mem _ hq)) ?_]
    · simp
    · intro q hq p hp
      rcases List.mem_append.mp hq with h | h
      · exact hacc q h p (List.mem_cons_of_mem _ hp)
      · have hqe : q = (k, v) := by simpa using h
        subst hqe
        exact hs'.1 p hp

/-- Decoding the encoding of a canonical sorted map with well-formed keys
and values returns the map unchanged. -/
theorem decode_encode_aux (m : EnvMap)
    (hs : m.Pairwise (fun a b => strLt a.1 b.1 = true))
    (hg : ∀ p ∈ m, goodKey p.1 ∧ goodVal p.2) :
    read_env_map_from_bytes (write_env_string m) = m := by
  unfold read_env_map_from_bytes
  rw [lines_write m hg, decode_fold m [] hs hg (by intro q hq p hp; simp at hq)]
  simp

/-! ## Claim C7: map codec round trip -/

/-- Counterexample to C7 as stated: the singleton map with key `" a"`
(a leading space) is key-unique, its key contains no `'='` and its value
no newline, yet decode(encode(m)) trims the key and returns a different
map. -/
theorem decode_encode_not_involutive_on_padded_key :
    read_env_map_from_bytes (write_env_string [([' ', 'a'], ['b'])]) ≠
      [([' ', 'a'], ['b'])] ∧
    '=' ∉ [' ', 'a'] ∧ '\n' ∉ ['b'] ∧
    read_env_map_from_bytes (write_env_string [([' ', 'a'], ['b'])]) = [(['a'], ['b'])] := by
  decide

/-- C7 (amended): decode(encode(m)) = m for every canonical (sorted,
key-unique) map whose keys additionally carry no surrounding whitespace,
no `'='`, no newline and no leading `'#'`, and whose values carry no
surrounding whitespace and no newline.  (The extra conditions beyond the
claim are forced: decode trims both sides and skips comment lines.) -/
theorem map_codec_roundtrip (m : EnvMap)
    (hs : m.Pairwise (fun a b => strLt a.1 b.1 = true))
    (hg : ∀ p ∈ m, goodKey p.1 ∧ goodVal p.2) :
    read_env_map_from_bytes (write_env_string m) = m :=
  decode_encode_aux m hs hg

/-- Witness for C7 (amended) on a concrete two-entry map. -/
theorem map_codec_roundtrip_witness :
    read_env_map_from_bytes (write_env_string [(['A'], ['1']), (['B'], ['2'])]) =
      [(['A'], ['1']), (['B'], ['2'])] :=
  map_codec_roundtrip [(['A'], ['1']), (['B'], ['2'])] (by decide) (by decide)

/-! ## Claim C1: master lock override -/

theorem map_ofNat_toNat (s : Str) : (s.map Char.toNat).map Char.ofNat = s := by
  induction s with
  | nil => rfl
  | cons c t ih => simp [ih, Char.ofNat_toNat]

/-- C1 (amended): once the master lock is enabled with master password
`M` (the persisted hash verifies exactly `M`), key resolution for every
directory — with or without a per-project lock file — derives the key
from `M` with the fixed master salt and the default cost parameters; a
read supplying the per-project password (or any password other than `M`)
fails master-password verification; and a read supplying `M` succeeds
and returns the stored map provided the blob was encrypted under the
master key (data written after enabling).  A blob still encrypted under
the per-project key is not readable with `M` (see the counterexample). -/
theorem master_lock_overrides_key_resolution (P : CryptoPrims) (st : FSState)
    (M pp H : Str)
    (Hml : st.masterFile = some (true, some H))
    (Hver : ∀ p : Str, P.a2verify p H = decide (p = M))
    (Hne : pp ≠ M) (dir : Dir) :
    load_key_for_dir P st M dir = .ok (P.kdf M master_salt default_params) ∧
    load_key_for_dir P st pp dir = .error .InvalidMasterPassword ∧
    (∀ (nonce : List Nat) (m : EnvMap),
      nonce.length = 12 →
      (∀ k n c, (P.gcm.tagOf k n c).length = 16) →
      (∀ k n p, P.gcm.ptOf k n (P.gcm.ctOf k n p) = p) →
      m.Pairwise (fun a b => strLt a.1 b.1 = true) →
      (∀ p ∈ m, goodKey p.1 ∧ goodVal p.2) →
      dir.envEnc = some (encrypt_with_key P.gcm (P.kdf M master_salt default_params) nonce
        ((write_env_string m).map Char.toNat)) →
      read_env_map P st M dir = .ok m) := by
  have hen : is_master_lock_enabled st = true := by
    simp [is_master_lock_enabled, load_master_lock_info, Hml]
  have hverM : verify_master_password P st M = .ok true := by
    simp [verify_master_password, load_master_lock_info, Hml, Hver]
  have h1 : load_key_for_dir P st M dir = .ok (P.kdf M master_salt default_params) := by
    simp [load_key_for_dir, hen, hverM, derive_key_from_password_and_salt]
  refine ⟨h1, ?_, ?_⟩
  · have hverpp : verify_master_password P st pp = .ok false := by
      simp [verify_master_password, load_master_lock_info, Hml, Hver, Hne]
    simp [load_key_for_dir, hen, hverpp]
  · intro nonce m Hn HtagLen Hpt hsort hgood Henc
    have hne : encrypt_with_key P.gcm (P.kdf M master_salt default_params) nonce
        ((write_env_string m).map Char.toNat) ≠ [] := by
      intro h
      have hl := congrArg List.length h
      simp [encrypt_with_key, List.length_append, Hn] at hl
    simp only [read_env_map, h1, Henc, Option.getD_some]
    rw [if_neg hne]
    rw [decrypt_encrypt_eq_ok P.gcm Hpt HtagLen _ nonce _ Hn]
    simp only [map_ofNat_toNat, decode_encode_aux m hsort hgood]

/-- The master password of the C1 scenario. -/
def c1M : Str := "masterpw1".toList

/-- The per-project password of the C1 scenario. -/
def c1pp : Str := "pw12345".toList

/-- The per-project lock file of the C1 scenario (salt `[7]`). -/
def c1Lock : LockInfo := ⟨"argon2id".toList, [7], default_params⟩

/-- The per-project key derived from the per-project password and lock. -/
def c1ppKey : Key := toyKdf c1pp [7] default_params

/-- A blob written before the master lock was enabled: encrypted under
the per-project key. -/
def c1Blob : List Nat :=
  encrypt_with_key toyGcm c1ppKey (List.replicate 12 0)
    ((write_env_string [(['T'], ['x'])]).map Char.toNat)

/-- The project directory of the C1 scenario: its own lock file and a
blob encrypted under the per-project key. -/
def c1Dir : Dir := ⟨some c1Lock, some c1Blob⟩

/-- State of the C1 scenario: master lock enabled with (identity-hashed)
password `c1M`, one locked project `001_v` holding `c1Dir`. -/
def c1State : FSState :=
  ⟨some [0], some ⟨[⟨"001_v".toList, "v".toList, true⟩], false⟩, some (true, some c1M),
    [("001_v".toList, c1Dir)], some emptyDir, false⟩

/-- Counterexample to C1 as stated: for a project whose blob was written
under its per-project lock before the master lock was enabled, a get
supplying the master password does NOT succeed — it fails with
`AuthenticationFailed`, because the key is now derived from the master
password while the blob is still bound to the per-project key (enabling
never re-encrypts).  The per-project password fails verification
outright. -/
theorem master_lock_cannot_read_preexisting_blob :
    cmd_get toyPrims c1State c1M ("001_v".toList) (['T']) =
      .error (.Crypto .AuthenticationFailed) ∧
    cmd_get toyPrims c1State c1pp ("001_v".toList) (['T']) =
      .error .InvalidMasterPassword := by
  decide

/-- Witness for C1 (amended), at the witness primitives: a directory with
a per-project lock whose blob is encrypted under the master key. -/
def c1DirMaster : Dir :=
  ⟨some c1Lock, some (encrypt_with_key toyGcm (toyPrims.kdf c1M master_salt default_params)
    (List.replicate 12 0) ((write_env_string [(['T'], ['x'])]).map Char.toNat))⟩

/-- Witness for C1 (amended): key resolution from `M` with the fixed
salt, failure of the per-project password, and a successful read of a
master-key blob. -/
theorem master_lock_overrides_key_resolution_witness :
    load_key_for_dir toyPrims c1State c1M c1DirMaster =
      .ok (toyPrims.kdf c1M master_salt default_params) ∧
    load_key_for_dir toyPrims c1State c1pp c1DirMaster = .error .InvalidMasterPassword ∧
    read_env_map toyPrims c1State c1M c1DirMaster = .ok [(['T'], ['x'])] := by
  have h := master_lock_overrides_key_resolution toyPrims c1State c1M c1pp c1M rfl
    (fun p => rfl) (by decide) c1DirMaster
  exact ⟨h.1, h.2.1, h.2.2 (List.replicate 12 0) [(['T'], ['x'])] (by decide)
    toyGcm_tag_length toyGcm_pt (by decide) (by decide) rfl⟩
